import Mathlib

/-!
Verification of the measure-innersource core against its specification.

The Python program measures InnerSource collaboration in a repository:
it builds a case-insensitive org chart, resolves the owning-team boundary
(either an explicit roster or inferred from the oldest commit's author),
classifies contributors, tallies per-author activity (commits, pull
requests, issues; the latter two in chunks), and computes a collaboration
ratio.  This file gives a shallow embedding of that core and proves or
refutes the specification's claims about it.
-/

namespace MeasureInnersource

/-- Raw org data: ordered (username, manager) entries, as parsed from
`org-data.json` (a JSON object keyed by username whose values carry a
`manager` field).  Order is JSON/`dict` insertion order. -/
abbrev OrgEntries := List (String × String)

/-- Case normalisation used by the org chart: pure lowercase folding
(character-wise, as Python's `str.lower` does for the ASCII usernames at
hand). -/
def normKey (s : String) : String := String.mk (s.data.map Char.toLower)

/-- Modelled from the spec: the `CaseInsensitiveDict` wrapper around org
data (OrgChart, spec section 4.1).  The class is imported and exercised by the
repository's test `test_case_insensitive_lookup.py` but its definition is
absent from the sources at hand; per the spec it is a case-insensitive,
case-preserving mapping from username to org record. -/
structure CaseInsensitiveDict where
  entries : OrgEntries
deriving DecidableEq, Repr

/-- Modelled from the spec: OrgChart construction — fails with a
`DuplicateIdentity` error when two entry keys normalise to the same
case-insensitive key, succeeds (preserving the entries) otherwise. -/
def CaseInsensitiveDict.build (raw : OrgEntries) : Except String CaseInsensitiveDict :=
  if (raw.map (fun e => normKey e.1)).Nodup then Except.ok ⟨raw⟩
  else Except.error "DuplicateIdentity: duplicate case-insensitive keys found"

/-- Modelled from the spec: case-insensitive search for an entry. -/
def CaseInsensitiveDict.find (d : CaseInsensitiveDict) (u : String) : Option (String × String) :=
  d.entries.find? (fun e => normKey e.1 == normKey u)

/-- Modelled from the spec: `lookup(username)` returns the manager of the
matching entry, compared case-insensitively, or nothing. -/
def CaseInsensitiveDict.lookup (d : CaseInsensitiveDict) (u : String) : Option String :=
  (d.find u).map (fun e => e.2)

/-- Modelled from the spec: `contains(username)`, case-insensitive. -/
def CaseInsensitiveDict.holds (d : CaseInsensitiveDict) (u : String) : Bool :=
  (d.find u).isSome

/-- One in-order pass over the org entries (the loop over
`user_to_manager.items()` at measure_innersource.py lines 227-232): a user
is appended when their manager is already in the growing team list and
they are not in it yet.  Later entries see members added by earlier ones,
but no second pass is made. -/
def closurePass : OrgEntries → List String → List String
  | [], t => t
  | e :: rest, t =>
    closurePass rest (if e.2 ∈ t ∧ e.1 ∉ t then t ++ [e.1] else t)

/-- Inferred-mode team-boundary resolution (measure_innersource.py lines
203-235): seed the list with the oldest-commit author and their manager,
extend it with the manager's direct reports (`manager_to_reports`; the
`if ... in manager_to_reports` guard is a no-op for an empty report list,
so the unconditional extend is equivalent), run the single in-order pass,
and finally drop duplicates (`list(set(...))`; the result is used as a
set, so `dedup` stands for the arbitrary-order Python set). -/
def resolveTeam (orgItems : OrgEntries) (author authorManager : String) : List String :=
  (closurePass orgItems
    ([author, authorManager] ++
      (orgItems.filter (fun e => e.2 == authorManager)).map (fun e => e.1))).dedup

/-- Stated from the spec's words (section 4.2 step 5), for comparison with
the code: repeat the pass until it adds no new member.  The fuel
`orgItems.length + 1` always reaches the fixed point because a productive
pass adds at least one of the finitely many listed users. -/
def iterPasses (orgItems : OrgEntries) : Nat → List String → List String
  | 0, t => t
  | n + 1, t =>
    let t2 := closurePass orgItems t
    if t2 = t then t else iterPasses orgItems n t2

/-- Stated from the spec's words: the boundary the claim describes — the
fixed-point closure of the reports-to relation over the seed set
containing the author and their manager. -/
def specBoundary (orgItems : OrgEntries) (author authorManager : String) : List String :=
  iterPasses orgItems (orgItems.length + 1) [author, authorManager]

/-- The reports-to step relation of the given org data: `stepsTo l a b`
holds when `a`'s org entry lists `b` as manager. -/
def stepsTo (orgItems : OrgEntries) (a b : String) : Prop := (a, b) ∈ orgItems

/-- The spec's worked example: org data alice→bob, bob→carol, dave→bob,
erin→dave. -/
def exampleOrg : OrgEntries :=
  [("alice", "bob"), ("bob", "carol"), ("dave", "bob"), ("erin", "dave")]

/-- Org data with a depth-three reporting chain below the manager (bob),
listed with the deepest report (frank) first. -/
def deepChainOrg : OrgEntries :=
  [("frank", "erin"), ("alice", "bob"), ("dave", "bob"), ("erin", "dave")]

/-- The same org data with the deepest report listed last. -/
def deepChainOrgReordered : OrgEntries :=
  [("alice", "bob"), ("dave", "bob"), ("erin", "dave"), ("frank", "erin")]

/-- Split a character list on commas, Python `str.split(",")` style: the
empty input yields one empty field, and consecutive commas yield empty
fields. -/
def splitComma : List Char → List (List Char)
  | [] => [[]]
  | c :: cs =>
    if c = ',' then [] :: splitComma cs
    else
      match splitComma cs with
      | [] => [[c]]
      | h :: t => (c :: h) :: t

/-- Strip leading and trailing whitespace, Python `str.strip()` style. -/
def trimWs (l : List Char) : List Char :=
  ((l.dropWhile Char.isWhitespace).reverse.dropWhile Char.isWhitespace).reverse

/-- Modelled from the spec: the OWNING_TEAM roster parsing in
`get_env_vars` — the parsing code is absent from the `config.py` at hand
though its tests exercise it; per the spec the configured string is
"parsed as comma-separated, trimmed, empty-entries dropped, yielding none
if nothing remains". -/
def parseOwningTeam (s : String) : Option (List String) :=
  match ((splitComma s.data).map trimWs).filter (fun f => f ≠ []) with
  | [] => none
  | fs => some (fs.map fun f => String.mk f)

/-- Increment one author's tally: `counts[author] = counts.get(author, 0) + 1`. -/
def bump (m : String → Nat) (a : String) : String → Nat :=
  fun x => if x = a then m a + 1 else m x

/-- Reduce a run of stream items into a per-author count map; an item
without a resolvable author login (`hasattr(item.user, "login")` guard,
modelled as `none`) is skipped rather than errored. -/
def tallyAuthors (m : String → Nat) (items : List (Option String)) : String → Nat :=
  items.foldl
    (fun acc it =>
      match it with
      | some a => bump acc a
      | none => acc) m

/-- The chunked ingestion loop (measure_innersource.py lines 286-307 and
317-338): pull up to `chunkSize` items from the stream; if the pull is
empty, stop; otherwise reduce the chunk into the running count map and
continue.  The fuel argument only bounds the recursion; `stream.length + 1`
is always enough.  Besides the final map the model records the size of
every pull, the final empty pull included, so that the number of fetch
iterations is observable. -/
def chunkedGo (chunkSize : Nat) :
    Nat → List (Option String) → (String → Nat) → List Nat → (String → Nat) × List Nat
  | 0, _, m, sizes => (m, sizes)
  | fuel + 1, stream, m, sizes =>
    if (stream.take chunkSize).isEmpty then (m, sizes ++ [0])
    else
      chunkedGo chunkSize fuel (stream.drop chunkSize)
        (tallyAuthors m (stream.take chunkSize)) (sizes ++ [(stream.take chunkSize).length])

/-- Chunked ingestion of a whole stream, starting from the empty count
map. -/
def chunkedTally (chunkSize : Nat) (stream : List (Option String)) :
    (String → Nat) × List Nat :=
  chunkedGo chunkSize (stream.length + 1) stream (fun _ => 0) []

/-- A stream of 250 attributable items, as in the spec's chunking example. -/
def stream250 : List (Option String) := List.replicate 250 (some "a")

/-- Substring occurrence over character lists: the pattern is a prefix of
some suffix. -/
def listHasInfix (pat : List Char) : List Char → Bool
  | [] => pat.isPrefixOf []
  | c :: rest => pat.isPrefixOf (c :: rest) || listHasInfix pat rest

/-- Bot detection: Python's `"[bot]" in contributor.login` substring
test. -/
def hasBotMarker (s : String) : Bool := listHasInfix "[bot]".data s.data

/-- The contributor classification loop (measure_innersource.py lines
243-259), processed left to right.  Result: (all contributors, innersource
contributors, warned contributors).  A contributor absent from the org
chart is recorded in the all-contributors list and in the warned list and
skipped (`continue`); a present contributor outside the team list without
the bot marker joins the innersource list; everyone lands in the
all-contributors list. -/
def classify (org : CaseInsensitiveDict) (team : List String) :
    List String → List String × List String × List String
  | [] => ([], [], [])
  | c :: rest =>
    if org.holds c = false then
      (c :: (classify org team rest).1, (classify org team rest).2.1,
        c :: (classify org team rest).2.2)
    else if c ∉ team ∧ hasBotMarker c = false then
      (c :: (classify org team rest).1, c :: (classify org team rest).2.1,
        (classify org team rest).2.2)
    else
      (c :: (classify org team rest).1, (classify org team rest).2.1,
        (classify org team rest).2.2)

/-- Sum of the values of a per-author count map
(`sum(counts.values())`). -/
def valuesSum (counts : List (String × Nat)) : Nat := (counts.map Prod.snd).sum

/-- The collaboration-ratio computation (measure_innersource.py lines
391-400): the quotient of the innersource total by the grand total when
the latter is positive, and 0 otherwise.  Arithmetic is modelled over the
rationals. -/
def innersourceRatio (innerTotal teamTotal : Nat) : ℚ :=
  if 0 < innerTotal + teamTotal then
    (innerTotal : ℚ) / ((innerTotal : ℚ) + (teamTotal : ℚ))
  else 0

/-- Outcome of team-boundary resolution.  `crash` stands for an uncaught
Python exception (IndexError from `commit_list[-1]` on an empty list, or
AttributeError from `.author.login` when the oldest commit has no
resolvable author); `authorMissing` is the guarded warn-and-return when
the oldest-commit author is not in the org chart. -/
inductive BoundaryResult where
  | resolved (team : List String) (author manager : Option String)
  | authorMissing
  | crash
deriving DecidableEq, Repr

/-- Team-boundary resolution (measure_innersource.py lines 172-238).  With
an explicit owning team the roster is used verbatim and the author/manager
fields stay unset; otherwise the oldest commit is the last element of the
materialised (newest-first) commit list, read without an emptiness or
attributability guard, and the author's manager is looked up in the org
chart (case-insensitively). -/
def resolveBoundary (orgData : CaseInsensitiveDict) (owningTeam : Option (List String))
    (commits : List (Option String)) : BoundaryResult :=
  match owningTeam with
  | some roster => BoundaryResult.resolved roster none none
  | none =>
    match commits.getLast? with
    | none => BoundaryResult.crash
    | some none => BoundaryResult.crash
    | some (some author) =>
      match orgData.lookup author with
      | none => BoundaryResult.authorMissing
      | some m =>
        BoundaryResult.resolved (resolveTeam orgData.entries author m)
          (some author) (some m)

/-- Everything `main` consumes after org data is loaded and the repository
fetched: the org chart, the optional explicit roster, the materialised
newest-first commit author list, the contributor logins, the pull-request
and issue author streams, and the configured chunk size. -/
structure RunInput where
  orgData : CaseInsensitiveDict
  owningTeam : Option (List String)
  commits : List (Option String)
  contributors : List String
  pulls : List (Option String)
  issues : List (Option String)
  chunkSize : Nat

/-- The payload handed to the external report writer. -/
structure Report where
  ratio : ℚ
  originalAuthor : Option String
  originalManager : Option String
  team : List String
  allContributors : List String
  innersourceContributors : List String
  warnings : List String
  innersourceTotal : Nat
  teamTotal : Nat

/-- Outcome of a run of `main`'s measurement pipeline: a report,
the graceful warn-and-terminate when the oldest-commit author is missing
from the org chart, or an uncaught exception. -/
inductive RunOutcome where
  | ok (r : Report)
  | abortedAuthorMissing
  | crashed

/-- The measurement pipeline of `main` (measure_innersource.py lines
162-423): resolve the team boundary, classify contributors, tally commit
authors (full pass) and pull-request/issue authors (chunked), total the
three tallies per classified contributor (`dedup` models the keyed Python
dict), and combine the totals into the collaboration ratio and report. -/
def runMain (input : RunInput) : RunOutcome :=
  match resolveBoundary input.orgData input.owningTeam input.commits with
  | BoundaryResult.crash => RunOutcome.crashed
  | BoundaryResult.authorMissing => RunOutcome.abortedAuthorMissing
  | BoundaryResult.resolved team a m =>
    let cls := classify input.orgData team input.contributors
    let commitCounts := tallyAuthors (fun _ => 0) input.commits
    let prCounts := (chunkedTally input.chunkSize input.pulls).1
    let issueCounts := (chunkedTally input.chunkSize input.issues).1
    let totalOf := fun c => commitCounts c + prCounts c + issueCounts c
    let innerTotal := (cls.2.1.dedup.map totalOf).sum
    let teamTotal := (team.dedup.map totalOf).sum
    RunOutcome.ok
      { ratio := innersourceRatio innerTotal teamTotal
        originalAuthor := a
        originalManager := m
        team := team
        allContributors := cls.1
        innersourceContributors := cls.2.1
        warnings := cls.2.2
        innersourceTotal := innerTotal
        teamTotal := teamTotal }

/- Concrete org data used in witnesses for the OrgChart claims. -/

/-- Org data whose two keys differ only by case. -/
def dupRaw : OrgEntries := [("Alice", "x"), ("alice", "y")]

/-- Org data with no case-insensitive key collisions. -/
def okRaw : OrgEntries := [("Alice", "Bob"), ("bob", "carol")]

/- Concrete inputs used in witnesses for the pipeline claims. -/

/-- Inferred-mode input whose oldest-commit author is absent from the org
chart. -/
def missingAuthorInput : RunInput :=
  { orgData := ⟨okRaw⟩, owningTeam := none, commits := [some "zed"],
    contributors := [], pulls := [], issues := [], chunkSize := 100 }

/-- Inferred-mode input with an empty commit list. -/
def emptyCommitsInput : RunInput :=
  { orgData := ⟨okRaw⟩, owningTeam := none, commits := [],
    contributors := [], pulls := [], issues := [], chunkSize := 100 }

/-- Explicit-roster input with a contributor missing from the org chart, a
bot contributor, and an ordinary innersource contributor. -/
def rosterInput : RunInput :=
  { orgData := ⟨[("alice", "bob"), ("robo[bot]", "bob"), ("carol", "bob")]⟩,
    owningTeam := some ["alice"],
    commits := [some "alice"],
    contributors := ["ghost", "robo[bot]", "carol"],
    pulls := [], issues := [], chunkSize := 100 }

end MeasureInnersource

namespace MeasureInnersource

/-- On a list whose normalised keys are pairwise distinct, the
case-insensitive search finds exactly the entry whose key is a case
variant of the query. -/
theorem find?_normKey_eq {l : OrgEntries}
    (hnd : (l.map (fun e => normKey e.1)).Nodup)
    {u m v : String} (hmem : (u, m) ∈ l) (hv : normKey v = normKey u) :
    l.find? (fun e => normKey e.1 == normKey v) = some (u, m) := by
  induction l with
  | nil => simp at hmem
  | cons a t ih =>
    rw [List.map_cons, List.nodup_cons] at hnd
    by_cases hp : normKey a.1 = normKey v
    · rw [List.find?_cons_of_pos _ (by simpa using hp)]
      rcases List.mem_cons.mp hmem with h | h
      · rw [h]
      · exact absurd (List.mem_map.mpr ⟨(u, m), h, (hv ▸ hp ▸ rfl)⟩) hnd.1
    · rw [List.find?_cons_of_neg _ (by simpa using hp)]
      rcases List.mem_cons.mp hmem with h | h
      · exact absurd (h ▸ hv.symm) hp
      · exact ih hnd.2 h

/-- Claim C2: for every org-data mapping with no case-insensitive key
collisions and every username present in it, membership tests and manager
lookups succeed for any case variant of that username (pure lowercase
folding for comparison, case-preserving storage); in particular the
oldest-commit-author check and each contributor's org-chart check, which
go through these operations, return the same result for any casing of a
present name. -/
theorem ci_case_variant_lookup (raw : OrgEntries) (d : CaseInsensitiveDict)
    (hbuild : CaseInsensitiveDict.build raw = Except.ok d)
    (u m v : String) (hmem : (u, m) ∈ d.entries) (hv : normKey v = normKey u) :
    d.holds v = true ∧ d.lookup v = some m := by
  unfold CaseInsensitiveDict.build at hbuild
  split at hbuild
  case isFalse => exact absurd hbuild (by simp)
  case isTrue hnd =>
    have hd : d = ⟨raw⟩ := by
      cases hbuild
      rfl
    subst hd
    have hfind := find?_normKey_eq (l := raw) hnd hmem hv
    constructor
    · simp [CaseInsensitiveDict.holds, CaseInsensitiveDict.find, hfind]
    · simp [CaseInsensitiveDict.lookup, CaseInsensitiveDict.find, hfind]

/-- Claim C2 witness: the lookup and membership test succeed on a fully
uppercased variant of a stored mixed-case username. -/
theorem ci_case_variant_lookup_witness :
    CaseInsensitiveDict.holds ⟨okRaw⟩ "ALICE" = true ∧
      CaseInsensitiveDict.lookup ⟨okRaw⟩ "ALICE" = some "Bob" :=
  ci_case_variant_lookup okRaw ⟨okRaw⟩ rfl "Alice" "Bob" "ALICE"
    (by decide) (by decide)

/-- Claim C3: org data containing two entry keys that differ only by case
fails org-chart construction with the DuplicateIdentity error (before any
traversal: construction itself returns the error); org data with no
case-insensitive key collisions constructs successfully, preserving the
entries. -/
theorem duplicate_identity_detection (raw : OrgEntries) :
    ((∃ i j : Fin raw.length, i ≠ j ∧ (raw.get i).1 ≠ (raw.get j).1 ∧
        normKey (raw.get i).1 = normKey (raw.get j).1) →
      CaseInsensitiveDict.build raw =
        Except.error "DuplicateIdentity: duplicate case-insensitive keys found") ∧
    ((∀ i j : Fin raw.length, i ≠ j → normKey (raw.get i).1 ≠ normKey (raw.get j).1) →
      CaseInsensitiveDict.build raw = Except.ok ⟨raw⟩) := by
  constructor
  · rintro ⟨i, j, hij, _, hnorm⟩
    unfold CaseInsensitiveDict.build
    rw [if_neg]
    intro hnd
    have hpw : raw.Pairwise (fun a b => normKey a.1 ≠ normKey b.1) := by
      have := hnd
      rw [List.Nodup, List.pairwise_map] at this
      exact this
    rw [List.pairwise_iff_get] at hpw
    rcases lt_or_gt_of_ne hij with h | h
    · exact hpw i j h hnorm
    · exact hpw j i h hnorm.symm
  · intro hdist
    unfold CaseInsensitiveDict.build
    rw [if_pos]
    rw [List.Nodup, List.pairwise_map, List.pairwise_iff_get]
    intro i j hij
    exact hdist i j (Fin.ne_of_lt hij)

/-- Claim C3 witness: construction fails on keys differing only by case and
succeeds on collision-free data. -/
theorem duplicate_identity_detection_witness :
    CaseInsensitiveDict.build dupRaw =
        Except.error "DuplicateIdentity: duplicate case-insensitive keys found" ∧
      CaseInsensitiveDict.build okRaw = Except.ok ⟨okRaw⟩ :=
  ⟨(duplicate_identity_detection dupRaw).1
      ⟨⟨0, by decide⟩, ⟨1, by decide⟩, by decide, by decide, by decide⟩,
    (duplicate_identity_detection okRaw).2 (by decide)⟩

/-- The single pass only ever appends: the starting list is contained in
its result. -/
theorem closurePass_sub : ∀ (l : OrgEntries) (t : List String), t ⊆ closurePass l t := by
  intro l
  induction l with
  | nil => intro t; exact List.Subset.refl t
  | cons e rest ih =>
    intro t
    simp only [closurePass]
    refine List.Subset.trans ?_ (ih _)
    split
    · exact List.subset_append_left t [e.1]
    · exact List.Subset.refl t

/-- Invariant preservation for the single pass: any property closed under
"my manager (per a processed entry) satisfies it" and holding on the
starting list holds on everything the pass adds. -/
theorem closurePass_invariant {R : String → Prop} :
    ∀ (l : OrgEntries) (t : List String),
      (∀ e ∈ l, R e.2 → R e.1) → (∀ x ∈ t, R x) →
      ∀ x ∈ closurePass l t, R x := by
  intro l
  induction l with
  | nil => intro t _ ht; simpa [closurePass] using ht
  | cons e rest ih =>
    intro t hl ht
    simp only [closurePass]
    refine ih _ (fun f hf => hl f (List.mem_cons_of_mem e hf)) ?_
    split
    case isTrue hcond =>
      intro x hx
      rcases List.mem_append.mp hx with hx | hx
      · exact ht x hx
      · have hx1 : x = e.1 := by simpa using hx
        exact hx1 ▸ hl e (List.mem_cons_self e rest) (ht e.2 hcond.1)
    case isFalse => exact ht

/-- Claim C1 counterexample: the resolved boundary is not the fixed-point
closure and depends on org-entry order.  For org data
frank→erin, alice→bob, dave→bob, erin→dave and seed author alice (manager
bob), frank is transitively subordinate to bob and belongs to the spec's
fixed-point closure, yet the code's single pass misses him because his
entry is listed before erin's; listing the same entries with frank last
makes the pass include him. -/
theorem team_closure_order_dependent_cex :
    deepChainOrg.Perm deepChainOrgReordered ∧
    "frank" ∈ specBoundary deepChainOrg "alice" "bob" ∧
    "frank" ∉ resolveTeam deepChainOrg "alice" "bob" ∧
    "frank" ∈ resolveTeam deepChainOrgReordered "alice" "bob" :=
  ⟨by decide, by decide, by decide, by decide⟩

/-- Claim C1 amended: in inferred mode the resolved boundary is the seed
set (author, manager, and the manager's direct reports) extended by a
single in-order pass that adds each listed user whose manager is already
in the growing set — not a fixed point, so deeper subordinates are
included only when entry order permits.  The result has no duplicates,
contains the author, the manager and every direct report of the manager,
and contains only users that transitively report up to the manager; for
the spec's example org data alice→bob, bob→carol, dave→bob, erin→dave with
seed author alice the boundary is exactly the set alice, bob, dave, erin. -/
theorem team_resolution_amended (orgItems : OrgEntries) (author M : String)
    (h : (author, M) ∈ orgItems) :
    (resolveTeam orgItems author M).Nodup ∧
    author ∈ resolveTeam orgItems author M ∧
    M ∈ resolveTeam orgItems author M ∧
    (∀ u m, (u, m) ∈ orgItems → m = M → u ∈ resolveTeam orgItems author M) ∧
    (∀ x ∈ resolveTeam orgItems author M,
      Relation.ReflTransGen (stepsTo orgItems) x M) ∧
    (resolveTeam exampleOrg "alice" "bob").toFinset = {"alice", "bob", "dave", "erin"} := by
  refine ⟨List.nodup_dedup _, ?_, ?_, ?_, ?_, by decide⟩
  · rw [resolveTeam, List.mem_dedup]
    exact closurePass_sub _ _ (by simp)
  · rw [resolveTeam, List.mem_dedup]
    exact closurePass_sub _ _ (by simp)
  · intro u m hmem hm
    rw [resolveTeam, List.mem_dedup]
    refine closurePass_sub _ _ ?_
    refine List.mem_append.mpr (Or.inr ?_)
    exact List.mem_map.mpr ⟨(u, m), List.mem_filter.mpr ⟨hmem, by simp [hm]⟩, rfl⟩
  · intro x hx
    rw [resolveTeam, List.mem_dedup] at hx
    refine closurePass_invariant
      (R := fun y => Relation.ReflTransGen (stepsTo orgItems) y M) orgItems _ ?_ ?_ x hx
    · intro e he hr
      exact Relation.ReflTransGen.head he hr
    · intro y hy
      rcases List.mem_append.mp hy with hy | hy
      · rcases List.mem_cons.mp hy with hy | hy
        · exact hy ▸ Relation.ReflTransGen.head (show stepsTo orgItems author M from h)
            Relation.ReflTransGen.refl
        · have : y = M := by simpa using hy
          exact this ▸ Relation.ReflTransGen.refl
      · rcases List.mem_map.mp hy with ⟨e, he, rfl⟩
        have hf := List.mem_filter.mp he
        have he2 : e.2 = M := by simpa using hf.2
        exact Relation.ReflTransGen.head
          (show stepsTo orgItems e.1 M from he2 ▸ hf.1) Relation.ReflTransGen.refl

/-- Splitting never yields an empty list of fields. -/
theorem splitComma_ne_nil : ∀ l : List Char, splitComma l ≠ [] := by
  intro l
  cases l with
  | nil => simp [splitComma]
  | cons c cs =>
    simp only [splitComma]
    split
    · simp
    · split
      · simp
      · simp

/-- Every character of every field produced by splitting is a
non-comma character of the input. -/
theorem splitComma_mem :
    ∀ (l : List Char), ∀ p ∈ splitComma l, ∀ ch ∈ p, ch ∈ l ∧ ch ≠ ',' := by
  intro l
  induction l with
  | nil =>
    intro p hp
    have : p = [] := by simpa [splitComma] using hp
    simp [this]
  | cons c cs ih =>
    intro p hp ch hch
    simp only [splitComma] at hp
    by_cases hc : c = ','
    · rw [if_pos hc] at hp
      rcases List.mem_cons.mp hp with h | h
      · subst h; simp at hch
      · have := ih p h ch hch
        exact ⟨List.mem_cons_of_mem c this.1, this.2⟩
    · rw [if_neg hc] at hp
      rcases heq : splitComma cs with _ | ⟨h0, t0⟩
      · exact absurd heq (splitComma_ne_nil cs)
      · rw [heq] at hp
        rcases List.mem_cons.mp hp with h | h
        · subst h
          rcases List.mem_cons.mp hch with h | h
          · exact ⟨h ▸ List.mem_cons_self c cs, h ▸ hc⟩
          · have := ih h0 (heq ▸ List.mem_cons_self h0 t0) ch h
            exact ⟨List.mem_cons_of_mem c this.1, this.2⟩
        · have := ih p (heq ▸ List.mem_cons_of_mem h0 h) ch hch
          exact ⟨List.mem_cons_of_mem c this.1, this.2⟩

/-- A field consisting solely of whitespace trims to nothing. -/
theorem trimWs_all_ws {l : List Char} (h : ∀ ch ∈ l, ch.isWhitespace = true) :
    trimWs l = [] := by
  unfold trimWs
  rw [List.dropWhile_eq_nil_iff.mpr h]
  simp

/-- Claim C4: the explicit team roster is the configured string split on
commas, each entry trimmed of whitespace, empty entries dropped; a string
that is empty or contains only whitespace and commas yields no explicit
roster (none), so the run falls back to inferred mode. -/
theorem owning_team_roster_normalization :
    (∀ s : String, (∀ ch ∈ s.data, ch.isWhitespace = true ∨ ch = ',') →
      parseOwningTeam s = none) ∧
    (∀ (s : String) (l : List String), parseOwningTeam s = some l →
      l ≠ [] ∧
        l = (((splitComma s.data).map trimWs).filter (fun f => f ≠ [])).map
              (fun f => String.mk f)) := by
  constructor
  · intro s hs
    have hfields :
        ((splitComma s.data).map trimWs).filter (fun f => f ≠ []) = [] := by
      rw [List.filter_eq_nil_iff]
      intro f hf
      rcases List.mem_map.mp hf with ⟨p, hp, rfl⟩
      have hws : ∀ ch ∈ p, ch.isWhitespace = true := by
        intro ch hch
        have hm := splitComma_mem s.data p hp ch hch
        rcases hs ch hm.1 with h | h
        · exact h
        · exact absurd h hm.2
      simp [trimWs_all_ws hws]
    unfold parseOwningTeam
    rw [hfields]
  · intro s l h
    unfold parseOwningTeam at h
    rcases heq : ((splitComma s.data).map trimWs).filter (fun f => f ≠ []) with _ | ⟨f0, fs⟩
    · rw [heq] at h
      exact absurd h (by simp)
    · rw [heq] at h
      have hl : (f0 :: fs).map (fun f => String.mk f) = l := by
        simpa using h
      exact ⟨by rw [← hl]; simp, by rw [← hl, heq]⟩

/-- Claim C4 witness: a whitespace-and-commas-only roster string yields no
explicit roster. -/
theorem owning_team_roster_normalization_witness :
    parseOwningTeam " , , " = none :=
  owning_team_roster_normalization.1 " , , " (by decide)

/-- Tallying distributes over stream concatenation. -/
theorem tallyAuthors_append (m : String → Nat) (l1 l2 : List (Option String)) :
    tallyAuthors m (l1 ++ l2) = tallyAuthors (tallyAuthors m l1) l2 := by
  unfold tallyAuthors
  exact List.foldl_append _ _ l1 l2

/-- With a positive chunk size and enough fuel, the chunked loop computes
the same count map as one unchunked reduction, and its pull sizes are a
block of positive sizes followed by exactly one empty pull. -/
theorem chunkedGo_spec (cs : Nat) (hcs : 1 ≤ cs) :
    ∀ (fuel : Nat) (stream : List (Option String)) (m : String → Nat) (sizes : List Nat),
      stream.length < fuel →
      (chunkedGo cs fuel stream m sizes).1 = tallyAuthors m stream ∧
      ∃ l, (chunkedGo cs fuel stream m sizes).2 = sizes ++ l ++ [0] ∧ ∀ x ∈ l, 0 < x := by
  intro fuel
  induction fuel with
  | zero => intro stream m sizes h; exact absurd h (Nat.not_lt_zero _)
  | succ n ih =>
    intro stream m sizes h
    simp only [chunkedGo]
    by_cases hch : (stream.take cs).isEmpty
    · rw [if_pos hch]
      have hstream : stream = [] := by
        rcases List.take_eq_nil_iff.mp (List.isEmpty_iff.mp hch) with h0 | h0
        · omega
        · exact h0
      subst hstream
      exact ⟨by simp [tallyAuthors], [], by simp, by simp⟩
    · rw [if_neg hch]
      have hne : stream ≠ [] := by
        intro h0
        subst h0
        simp at hch
      have hlen : (stream.drop cs).length < n := by
        have h1 : 1 ≤ stream.length := List.length_pos.mpr hne
        rw [List.length_drop]
        omega
      obtain ⟨h1, l, h2, h3⟩ := ih (stream.drop cs) (tallyAuthors m (stream.take cs))
        (sizes ++ [(stream.take cs).length]) hlen
      refine ⟨?_, (stream.take cs).length :: l, ?_, ?_⟩
      · rw [h1, ← tallyAuthors_append, List.take_append_drop]
      · rw [h2]
        simp
      · intro x hx
        rcases List.mem_cons.mp hx with h0 | h0
        · subst h0
          have : stream.take cs ≠ [] := fun h0 => hch (List.isEmpty_iff.mpr h0)
          exact List.length_pos.mpr this
        · exact h3 x h0

set_option maxRecDepth 4000 in
/-- Claim C5 counterexample: over a stream of 250 items with chunk size
100 the ingestion loop performs four chunk pulls — 100, 100, 50 and then
one empty pull that triggers termination — not exactly three; the loop
does not stop at the short (50-item) pull. -/
theorem chunked_pull_count_cex :
    (chunkedTally 100 stream250).2 = [100, 100, 50, 0] ∧
      (chunkedTally 100 stream250).2 ≠ [100, 100, 50] := by
  constructor
  · decide
  · decide

set_option maxRecDepth 4000 in
/-- Claim C5 amended: for every stream and every chunk size N ≥ 1, chunked
ingestion produces a per-author count map identical to a single unchunked
reduction over the whole stream, and iteration stops exactly when a chunk
pull yields no items: every pull before the last yields at least one item
and the last pull yields none (a pull shorter than requested but non-empty
is processed and followed by one further, empty, pull); in particular,
over a stream of 250 items with chunk size 100 four chunk pulls are
performed, yielding 100, 100, 50 and 0 items. -/
theorem chunked_tally_amended (cs : Nat) (hcs : 1 ≤ cs) (stream : List (Option String)) :
    (chunkedTally cs stream).1 = tallyAuthors (fun _ => 0) stream ∧
    (∃ l, (chunkedTally cs stream).2 = l ++ [0] ∧ ∀ x ∈ l, 0 < x) ∧
    (chunkedTally 100 stream250).2 = [100, 100, 50, 0] := by
  obtain ⟨h1, l, h2, h3⟩ :=
    chunkedGo_spec cs hcs (stream.length + 1) stream (fun _ => 0) [] (Nat.lt_succ_self _)
  exact ⟨h1, ⟨l, by simpa [chunkedTally] using h2, h3⟩, by decide⟩

/-- Claim C5 amended witness: instantiation at the 250-item stream with
chunk size 100. -/
theorem chunked_tally_amended_witness :
    (chunkedTally 100 stream250).1 = tallyAuthors (fun _ => 0) stream250 ∧
    (∃ l, (chunkedTally 100 stream250).2 = l ++ [0] ∧ ∀ x ∈ l, 0 < x) ∧
    (chunkedTally 100 stream250).2 = [100, 100, 50, 0] :=
  chunked_tally_amended 100 (by decide) stream250

/-- The classification pass records every contributor, in order, in the
all-contributors list. -/
theorem classify_all (org : CaseInsensitiveDict) (team : List String) :
    ∀ cs : List String, (classify org team cs).1 = cs := by
  intro cs
  induction cs with
  | nil => rfl
  | cons c rest ih =>
    simp only [classify]
    split
    · simpa using ih
    · split
      · simpa using ih
      · simpa using ih

/-- Membership in the innersource list produced by classification: present
in the contributor list, present in the org chart, outside the team list,
and free of the bot marker. -/
theorem classify_inner_mem (org : CaseInsensitiveDict) (team : List String) (c : String) :
    ∀ cs : List String,
      c ∈ (classify org team cs).2.1 ↔
        c ∈ cs ∧ org.holds c = true ∧ c ∉ team ∧ hasBotMarker c = false := by
  intro cs
  induction cs with
  | nil => simp [classify]
  | cons c0 rest ih =>
    simp only [classify]
    split
    case isTrue h1 =>
      rw [ih]
      constructor
      · rintro ⟨hc, h⟩
        exact ⟨List.mem_cons_of_mem _ hc, h⟩
      · rintro ⟨hc, hh, ht, hb⟩
        rcases List.mem_cons.mp hc with rfl | hc
        · rw [h1] at hh
          exact Bool.noConfusion hh
        · exact ⟨hc, hh, ht, hb⟩
    case isFalse h1 =>
      have h1' : org.holds c0 = true := by
        revert h1
        cases org.holds c0 <;> simp
      split
      case isTrue h2 =>
        simp only [List.mem_cons, ih]
        constructor
        · rintro (rfl | ⟨hc, hh, ht, hb⟩)
          · exact ⟨Or.inl rfl, h1', h2.1, h2.2⟩
          · exact ⟨Or.inr hc, hh, ht, hb⟩
        · rintro ⟨rfl | hc, hh, ht, hb⟩
          · exact Or.inl rfl
          · exact Or.inr ⟨hc, hh, ht, hb⟩
      case isFalse h2 =>
        rw [ih]
        constructor
        · rintro ⟨hc, h⟩
          exact ⟨List.mem_cons_of_mem _ hc, h⟩
        · rintro ⟨hc, hh, ht, hb⟩
          rcases List.mem_cons.mp hc with rfl | hc
          · exact absurd ⟨ht, hb⟩ h2
          · exact ⟨hc, hh, ht, hb⟩

/-- Membership in the warned list produced by classification: present in
the contributor list and absent from the org chart. -/
theorem classify_warns_mem (org : CaseInsensitiveDict) (team : List String) (c : String) :
    ∀ cs : List String,
      c ∈ (classify org team cs).2.2 ↔ c ∈ cs ∧ org.holds c = false := by
  intro cs
  induction cs with
  | nil => simp [classify]
  | cons c0 rest ih =>
    simp only [classify]
    split
    case isTrue h1 =>
      simp only [List.mem_cons, ih]
      constructor
      · rintro (rfl | ⟨hc, hh⟩)
        · exact ⟨Or.inl rfl, h1⟩
        · exact ⟨Or.inr hc, hh⟩
      · rintro ⟨rfl | hc, hh⟩
        · exact Or.inl rfl
        · exact Or.inr ⟨hc, hh⟩
    case isFalse h1 =>
      have h1' : org.holds c0 = true := by
        revert h1
        cases org.holds c0 <;> simp
      split
      case isTrue h2 =>
        rw [ih]
        constructor
        · rintro ⟨hc, hh⟩
          exact ⟨List.mem_cons_of_mem _ hc, hh⟩
        · rintro ⟨hc, hh⟩
          rcases List.mem_cons.mp hc with rfl | hc
          · rw [h1'] at hh
            exact Bool.noConfusion hh
          · exact ⟨hc, hh⟩
      case isFalse h2 =>
        rw [ih]
        constructor
        · rintro ⟨hc, hh⟩
          exact ⟨List.mem_cons_of_mem _ hc, hh⟩
        · rintro ⟨hc, hh⟩
          rcases List.mem_cons.mp hc with rfl | hc
          · rw [h1'] at hh
            exact Bool.noConfusion hh
          · exact ⟨hc, hh⟩

/-- When boundary resolution yields a team, the run completes with a
report whose lists come from the resolved team and the classification
pass. -/
theorem runMain_eq_ok (input : RunInput) (team : List String) (a m : Option String)
    (hres : resolveBoundary input.orgData input.owningTeam input.commits =
      BoundaryResult.resolved team a m) :
    ∃ r, runMain input = RunOutcome.ok r ∧
      r.team = team ∧
      r.allContributors = (classify input.orgData team input.contributors).1 ∧
      r.innersourceContributors = (classify input.orgData team input.contributors).2.1 ∧
      r.warnings = (classify input.orgData team input.contributors).2.2 := by
  unfold runMain
  rw [hres]
  exact ⟨_, rfl, rfl, rfl, rfl, rfl⟩

/-- An org chart that does not contain a username cannot look up its
manager. -/
theorem lookup_eq_none_of_not_holds (d : CaseInsensitiveDict) (u : String)
    (h : d.holds u = false) : d.lookup u = none := by
  unfold CaseInsensitiveDict.holds at h
  unfold CaseInsensitiveDict.lookup
  cases hf : d.find u
  · rfl
  · rw [hf] at h
    exact Bool.noConfusion h

/-- Claim C7: in inferred mode, when the oldest-commit author is absent
from the org chart the run is fatal — it terminates with the
warn-and-return outcome, producing no report (no classification, counting,
ratio computation or report write happens on that path), in contrast to
the non-fatal skip applied to an ordinary contributor missing from the org
chart. -/
theorem author_missing_aborts_run (input : RunInput) (author : String)
    (h1 : input.owningTeam = none)
    (h2 : input.commits.getLast? = some (some author))
    (h3 : input.orgData.holds author = false) :
    runMain input = RunOutcome.abortedAuthorMissing := by
  have h3' := lookup_eq_none_of_not_holds input.orgData author h3
  unfold runMain resolveBoundary
  rw [h1, h2]
  simp only [h3']

/-- Claim C7 witness: a run whose only commit is authored by a user
missing from the org chart aborts. -/
theorem author_missing_aborts_run_witness :
    runMain missingAuthorInput = RunOutcome.abortedAuthorMissing :=
  author_missing_aborts_run missingAuthorInput "zed" rfl rfl (by decide)

/-- Claim C8: whenever boundary resolution succeeds, the run completes
with a report, the report's team list comes from boundary resolution alone
(so no contributor is added to it by classification), and every
contributor absent from the org chart appears in the all-contributors
list, is excluded from the innersource list, and is recorded as a
warning-class event. -/
theorem missing_contributor_nonfatal (input : RunInput) (team : List String)
    (a m : Option String)
    (hres : resolveBoundary input.orgData input.owningTeam input.commits =
      BoundaryResult.resolved team a m) :
    ∃ r, runMain input = RunOutcome.ok r ∧ r.team = team ∧
      ∀ c ∈ input.contributors, input.orgData.holds c = false →
        c ∈ r.allContributors ∧ c ∉ r.innersourceContributors ∧ c ∈ r.warnings := by
  obtain ⟨r, hrun, hteam, hall, hinner, hwarn⟩ := runMain_eq_ok input team a m hres
  refine ⟨r, hrun, hteam, ?_⟩
  intro c hc hmiss
  refine ⟨?_, ?_, ?_⟩
  · rw [hall, classify_all]
    exact hc
  · rw [hinner]
    intro hmem
    have h := (classify_inner_mem input.orgData team c input.contributors).mp hmem
    rw [hmiss] at h
    exact Bool.noConfusion h.2.1
  · rw [hwarn]
    exact (classify_warns_mem input.orgData team c input.contributors).mpr ⟨hc, hmiss⟩

/-- Claim C8 witness: with an explicit roster and a contributor "ghost"
missing from the org chart, the run still completes; "ghost" is listed
among all contributors, excluded from the innersource list, and warned
about. -/
theorem missing_contributor_nonfatal_witness :
    ∃ r, runMain rosterInput = RunOutcome.ok r ∧ r.team = ["alice"] ∧
      ("ghost" ∈ r.allContributors ∧ "ghost" ∉ r.innersourceContributors ∧
        "ghost" ∈ r.warnings) := by
  obtain ⟨r, hrun, hteam, h⟩ :=
    missing_contributor_nonfatal rosterInput ["alice"] none none rfl
  exact ⟨r, hrun, hteam, h "ghost" (by decide) (by decide)⟩

/-- Claim C9: whenever boundary resolution succeeds, a contributor present
in the org chart and outside the team boundary is excluded from the
innersource list exactly when their login contains the substring "[bot]":
with the marker they are excluded, without it they are included. -/
theorem bot_contributors_excluded (input : RunInput) (team : List String)
    (a m : Option String)
    (hres : resolveBoundary input.orgData input.owningTeam input.commits =
      BoundaryResult.resolved team a m) :
    ∃ r, runMain input = RunOutcome.ok r ∧
      ∀ c ∈ input.contributors, input.orgData.holds c = true → c ∉ team →
        (hasBotMarker c = true → c ∉ r.innersourceContributors) ∧
        (hasBotMarker c = false → c ∈ r.innersourceContributors) := by
  obtain ⟨r, hrun, _, _, hinner, _⟩ := runMain_eq_ok input team a m hres
  refine ⟨r, hrun, ?_⟩
  intro c hc hh ht
  constructor
  · intro hbot hmem
    rw [hinner] at hmem
    have h := (classify_inner_mem input.orgData team c input.contributors).mp hmem
    rw [hbot] at h
    exact Bool.noConfusion h.2.2.2
  · intro hbot
    rw [hinner]
    exact (classify_inner_mem input.orgData team c input.contributors).mpr
      ⟨hc, hh, ht, hbot⟩

/-- Claim C9 witness: "robo[bot]" (in the org chart, outside the team,
marked as a bot) is excluded from the innersource list while "carol" (same
situation, no marker) is included. -/
theorem bot_contributors_excluded_witness :
    ∃ r, runMain rosterInput = RunOutcome.ok r ∧
      ("robo[bot]" ∉ r.innersourceContributors ∧
        "carol" ∈ r.innersourceContributors) := by
  obtain ⟨r, hrun, h⟩ := bot_contributors_excluded rosterInput ["alice"] none none rfl
  exact ⟨r, hrun,
    (h "robo[bot]" (by decide) (by decide) (by decide)).1 (by decide),
    (h "carol" (by decide) (by decide) (by decide)).2 (by decide)⟩

/-- Claim C6: for every pair of per-author total maps, the collaboration
ratio equals the innersource value-sum divided by the grand value-sum when
that denominator is positive, is exactly 0 when the denominator is 0 (no
divide-by-zero fault), and always lies in the closed interval from 0
to 1. -/
theorem innersource_ratio_bounds (innerCounts teamCounts : List (String × Nat)) :
    (0 < valuesSum innerCounts + valuesSum teamCounts →
      innersourceRatio (valuesSum innerCounts) (valuesSum teamCounts) =
        (valuesSum innerCounts : ℚ) /
          ((valuesSum innerCounts : ℚ) + (valuesSum teamCounts : ℚ))) ∧
    (valuesSum innerCounts + valuesSum teamCounts = 0 →
      innersourceRatio (valuesSum innerCounts) (valuesSum teamCounts) = 0) ∧
    0 ≤ innersourceRatio (valuesSum innerCounts) (valuesSum teamCounts) ∧
    innersourceRatio (valuesSum innerCounts) (valuesSum teamCounts) ≤ 1 := by
  generalize valuesSum innerCounts = i
  generalize valuesSum teamCounts = t
  unfold innersourceRatio
  by_cases h : 0 < i + t
  · rw [if_pos h]
    have hd : (0 : ℚ) < (i : ℚ) + (t : ℚ) := by
      have : (0 : ℚ) < ((i + t : Nat) : ℚ) := by exact_mod_cast h
      rw [Nat.cast_add] at this
      exact this
    refine ⟨fun _ => rfl, fun h0 => absurd h0 (by omega), ?_, ?_⟩
    · exact div_nonneg (Nat.cast_nonneg i) hd.le
    · rw [div_le_one hd]
      exact le_add_of_nonneg_right (Nat.cast_nonneg t)
  · rw [if_neg h]
    exact ⟨fun h0 => absurd h0 h, fun _ => rfl, le_refl 0, by norm_num⟩

/-- Claim C6 witness: the spec's end-to-end numbers — innersource total 2,
team totals 3 and 1 — give ratio 2/6 within the stated bounds. -/
theorem innersource_ratio_bounds_witness :
    (0 < valuesSum [("x", 2)] + valuesSum [("a", 3), ("m", 1)] →
      innersourceRatio (valuesSum [("x", 2)]) (valuesSum [("a", 3), ("m", 1)]) =
        (valuesSum [("x", 2)] : ℚ) /
          ((valuesSum [("x", 2)] : ℚ) + (valuesSum [("a", 3), ("m", 1)] : ℚ))) ∧
    (valuesSum [("x", 2)] + valuesSum [("a", 3), ("m", 1)] = 0 →
      innersourceRatio (valuesSum [("x", 2)]) (valuesSum [("a", 3), ("m", 1)]) = 0) ∧
    0 ≤ innersourceRatio (valuesSum [("x", 2)]) (valuesSum [("a", 3), ("m", 1)]) ∧
    innersourceRatio (valuesSum [("x", 2)]) (valuesSum [("a", 3), ("m", 1)]) ≤ 1 :=
  innersource_ratio_bounds [("x", 2)] [("a", 3), ("m", 1)]

/-- Claim C10: in inferred mode the oldest-commit read is unguarded — with
an empty commit list, or an oldest commit without a resolvable author
login, the run crashes (IndexError from `commit_list[-1]`, respectively
AttributeError from `.author.login`) — unlike contribution counting, which
skips an unattributable commit. -/
theorem oldest_commit_access_unguarded (input : RunInput)
    (h1 : input.owningTeam = none)
    (h2 : input.commits = [] ∨ input.commits.getLast? = some none) :
    runMain input = RunOutcome.crashed ∧
      ∀ (m : String → Nat) (cs : List (Option String)),
        tallyAuthors m (none :: cs) = tallyAuthors m cs := by
  constructor
  · unfold runMain resolveBoundary
    rcases h2 with h2 | h2
    · rw [h1, h2]
      rfl
    · rw [h1, h2]
  · intro m cs
    rfl

/-- Claim C10 witness: a run over an empty commit list in inferred mode
crashes, while the tallying pass skips an unattributable commit. -/
theorem oldest_commit_access_unguarded_witness :
    runMain emptyCommitsInput = RunOutcome.crashed ∧
      tallyAuthors (fun _ => 0) [none, some "a"] = tallyAuthors (fun _ => 0) [some "a"] :=
  ⟨(oldest_commit_access_unguarded emptyCommitsInput rfl (Or.inl rfl)).1,
    (oldest_commit_access_unguarded emptyCommitsInput rfl (Or.inl rfl)).2
      (fun _ => 0) [some "a"]⟩

/-- Claim C1 amended witness: instantiation at the spec's example org data
and seed author alice with manager bob. -/
theorem team_resolution_amended_witness :
    (resolveTeam exampleOrg "alice" "bob").Nodup ∧
    "alice" ∈ resolveTeam exampleOrg "alice" "bob" ∧
    "bob" ∈ resolveTeam exampleOrg "alice" "bob" ∧
    (∀ u m, (u, m) ∈ exampleOrg → m = "bob" → u ∈ resolveTeam exampleOrg "alice" "bob") ∧
    (∀ x ∈ resolveTeam exampleOrg "alice" "bob",
      Relation.ReflTransGen (stepsTo exampleOrg) x "bob") ∧
    (resolveTeam exampleOrg "alice" "bob").toFinset = {"alice", "bob", "dave", "erin"} :=
  team_resolution_amended exampleOrg "alice" "bob" (by decide)

end MeasureInnersource
